import Mathlib

/-!
Verification of the safe-task-claim service (src/src/main.rs).

The program is an MCP tool that atomically claims ownership of a task record
stored as a JSON file: it resolves a team directory, checks the task file
exists, takes an exclusive flock on a per-team `.lock` file, decodes the
record, validates claimability, rewrites the record with the new owner and
status `in_progress`, and releases the lock.

The embedding below models:
  * JSON documents as a tree (`Json`); the textual parse step of
    `serde_json::from_str` is abstracted as `Option Json` (`none` = the raw
    bytes are not well-formed JSON), since every claim is about the tree
    structure, not the lexer;
  * the `TaskFile` struct and its derived serde `Deserialize`/`Serialize`
    instances (`decode` / `encode`).  The serde derive processes object
    entries in stream order, errors on a duplicated known field and on an
    ill-typed known field, and ignores unknown fields; with each known key
    occurring at most once, first-occurrence lookup reproduces that
    behaviour exactly, which is how `decode` is written.  The metadata
    field is an `Option<serde_json::Value>`: deserializing a subtree into
    a `Value` canonicalizes every object in it, because `serde_json::Map`
    is a `BTreeMap` — keys end up sorted in byte order and a duplicated
    key keeps only its last value.  `canon` models exactly that; numbers
    are already abstracted as integers here, so the numeral-formatting
    normalization of the lexer is below tree level;
  * `SafeTaskClaim::claim_under_lock` (`claimUnderLock`), with the read and
    write of the task file made explicit;
  * `SafeTaskClaim::resolve_team` (`resolveTeam`), with `fs::read_dir`
    abstracted as `Except Unit (List DirEntry)`;
  * `SafeTaskClaim::do_claim` (`doClaim`) as a function that also returns
    the trace of lock/filesystem events, so that lock discipline and
    "no write happened" claims are statable.  `flock(LOCK_UN)` and the
    implicit release when the `File` handle is dropped/closed are modelled
    as the single `lockRelease` event.
-/

/-- A JSON document, as in `serde_json::Value`.  Object entries keep their
textual order and may repeat keys; numbers are abstracted as integers (the
numeric subtleties of JSON play no role in any claim). -/
inductive Json where
  | null : Json
  | bool : Bool → Json
  | num : Int → Json
  | str : String → Json
  | arr : List Json → Json
  | obj : List (String × Json) → Json

/-- The `TaskFile` struct of src/src/main.rs (lines 16–33). -/
structure TaskFile where
  id : String
  subject : String
  description : String
  active_form : String
  status : String
  owner : Option String
  blocks : List String
  blocked_by : List String
  metadata : Option Json

/-- Look a key up in a JSON object's entry list: first occurrence wins,
as in serde's streaming visitor once duplicates are ruled out. -/
def getKey (l : List (String × Json)) (k : String) : Option Json :=
  (l.find? (fun p => p.1 == k)).map (·.2)

/-- How many entries of the object carry the key `k`. -/
def countKey (l : List (String × Json)) (k : String) : Nat :=
  l.countP (fun p => p.1 == k)

/-- Field access on a JSON document (none when absent or not an object). -/
def jsonField (j : Json) (k : String) : Option Json :=
  match j with
  | .obj l => getKey l k
  | _ => none

/-- Deserializing a JSON value into a Rust `String`. -/
def asStr : Json → Option String
  | .str s => some s
  | _ => none

/-- Deserializing a JSON array's elements into a Rust `Vec<String>`. -/
def asStrList : List Json → Option (List String)
  | [] => some []
  | j :: js => do
    let s ← asStr j
    let rest ← asStrList js
    pure (s :: rest)

/-- A required `String` field: absent or non-string value is an error. -/
def reqStr (l : List (String × Json)) (k : String) : Option String :=
  match getKey l k with
  | some v => asStr v
  | none => none

/-- A `#[serde(default)] String` field: absent defaults to `""`,
a present non-string value is an error. -/
def optStr (l : List (String × Json)) (k : String) : Option String :=
  match getKey l k with
  | some v => asStr v
  | none => some ""

/-- The `#[serde(default)] owner: Option<String>` field: absent or `null`
is `none`, a string is `some`, anything else is an error. -/
def ownerField (l : List (String × Json)) : Option (Option String) :=
  match getKey l "owner" with
  | none => some none
  | some .null => some none
  | some (.str s) => some (some s)
  | some _ => none

/-- A `#[serde(default)] Vec<String>` field: absent defaults to `[]`,
a present value must be an array of strings. -/
def listField (l : List (String × Json)) (k : String) : Option (List String) :=
  match getKey l k with
  | some (.arr js) => asStrList js
  | some _ => none
  | none => some []

/-- Byte-order comparison of two char lists (for valid UTF-8, code-point
order and byte order agree, so this is the `Ord` of Rust strings that
`BTreeMap` sorts by). -/
def lexLt : List Char → List Char → Bool
  | [], [] => false
  | [], _ :: _ => true
  | _ :: _, [] => false
  | c :: cs, d :: ds =>
    if c.toNat < d.toNat then true
    else if d.toNat < c.toNat then false
    else lexLt cs ds

/-- The strict order on strings used by `BTreeMap<String, Value>`. -/
def strLtB (a b : String) : Bool := lexLt a.data b.data

/-- Insertion into the sorted entry list of a `serde_json::Map`
(`BTreeMap::insert`): an existing key keeps its place and takes the new
value, so a duplicated source key keeps only its last value. -/
def insertCanon (k : String) (v : Json) : List (String × Json) → List (String × Json)
  | [] => [(k, v)]
  | (k2, v2) :: rest =>
    if strLtB k k2 then (k, v) :: (k2, v2) :: rest
    else if k = k2 then (k, v) :: rest
    else (k2, v2) :: insertCanon k v rest

/-- Building a `serde_json::Map` from object entries in stream order. -/
def sortDedup (l : List (String × Json)) : List (String × Json) :=
  l.foldl (fun acc p => insertCanon p.1 p.2 acc) []

/-- What deserializing a document subtree into a `serde_json::Value` does
to it: every object in the tree is rebuilt as a `BTreeMap`, i.e. keys
sorted and duplicates collapsed (last value wins), recursively. -/
def canon : Json → Json
  | .null => .null
  | .bool b => .bool b
  | .num n => .num n
  | .str s => .str s
  | .arr js => .arr (js.attach.map fun x => canon x.1)
  | .obj l => .obj (sortDedup (l.attach.map fun x => (x.1.1, canon x.1.2)))
decreasing_by
  · have := List.sizeOf_lt_of_mem x.2
    simp_arith
    omega
  · have h1 := List.sizeOf_lt_of_mem x.2
    obtain ⟨⟨k, v⟩, hmem⟩ := x
    simp_arith at h1 ⊢
    omega

/-- The key order of a canonical (`BTreeMap`) entry list. -/
def keyLt (p q : String × Json) : Prop := strLtB p.1 q.1 = true

/-- The `#[serde(default)] metadata: Option<serde_json::Value>` field:
absent or `null` is `none`, any other value becomes a `serde_json::Value`,
i.e. is canonicalized by `canon`. -/
def metaField (l : List (String × Json)) : Option (Option Json) :=
  match getKey l "metadata" with
  | none => some none
  | some .null => some none
  | some v => some (some (canon v))

/-- The object keys the serde derive recognises (including the
`rename` aliases `activeForm` and `blockedBy`). -/
def knownKeys : List String :=
  ["id", "subject", "description", "activeForm", "status",
   "owner", "blocks", "blockedBy", "metadata"]

/-- Model of serde's duplicate-field rule: the derived visitor errors with `duplicate field` when a known key
occurs twice; unknown keys may repeat freely. -/
def noDupKnown (l : List (String × Json)) : Bool :=
  knownKeys.all (fun k => countKey l k ≤ 1)

/-- Decoding an object's entry list into a `TaskFile`, as the derived
`Deserialize` does. -/
def decodeFields (l : List (String × Json)) : Option TaskFile :=
  if noDupKnown l then do
    let id ← reqStr l "id"
    let subject ← reqStr l "subject"
    let description ← optStr l "description"
    let active_form ← optStr l "activeForm"
    let status ← reqStr l "status"
    let owner ← ownerField l
    let blocks ← listField l "blocks"
    let blocked_by ← listField l "blockedBy"
    let metadata ← metaField l
    pure ⟨id, subject, description, active_form, status,
          owner, blocks, blocked_by, metadata⟩
  else none

/-- Model of `serde_json::from_str::<TaskFile>` on an already-lexed document: the
top level must be an object. -/
def decode (j : Json) : Option TaskFile :=
  match j with
  | .obj l => decodeFields l
  | _ => none

/-- Serialization of an `Option<String>` field: `None` becomes `null`. -/
def ownerJson : Option String → Json
  | none => .null
  | some s => .str s

/-- Serialization of the `Option<serde_json::Value>` metadata field:
`None` becomes `null`, a present value is emitted as stored.  In the
program the stored value is a `serde_json::Value`, whose maps are already
sorted in memory, and serialization walks them in order; every record the
program holds comes from `decode`, whose `metaField` establishes exactly
that canonical shape, so emitting the stored tree as-is is faithful. -/
def metaJson : Option Json → Json
  | none => .null
  | some v => v

/-- Model of `serde_json::to_string_pretty` on a `TaskFile`, at tree level: fields
in declaration order, `None` serialized as `null`. -/
def encode (t : TaskFile) : Json :=
  .obj [("id", .str t.id),
        ("subject", .str t.subject),
        ("description", .str t.description),
        ("activeForm", .str t.active_form),
        ("status", .str t.status),
        ("owner", ownerJson t.owner),
        ("blocks", .arr (t.blocks.map .str)),
        ("blockedBy", .arr (t.blocked_by.map .str)),
        ("metadata", metaJson t.metadata)]

/-- The failure cases of the claim operation (the `bail!`/`Context`
messages of src/src/main.rs, as a taxonomy). -/
inductive ClaimError where
  | cannotReadTasksDir
  | noTeamDirs
  | teamNotFound
  | taskNotFound
  | lockOpenFailed
  | flockFailed
  | unlockFailed
  | readFailed
  | invalidJson
  | alreadyClaimed (owner : String)
  | alreadyInProgress
  | alreadyCompleted
  | deleted
  | writeFailed
deriving DecidableEq

/-- The status check of `claim_under_lock` (lines 125–130). -/
def statusDenial (t : TaskFile) : Option ClaimError :=
  match t.status with
  | "in_progress" => some .alreadyInProgress
  | "completed" => some .alreadyCompleted
  | "deleted" => some .deleted
  | _ => none

/-- The validation of `claim_under_lock` (lines 119–130): a present
non-empty owner is rejected first, regardless of status; then the status
gate runs. -/
def claimValidate (t : TaskFile) : Option ClaimError :=
  match t.owner with
  | some existing =>
      if existing.isEmpty then statusDenial t
      else some (.alreadyClaimed existing)
  | none => statusDenial t

/-- Outcome of `claim_under_lock`: the returned `Result`, and the content
written to the task file when a write happened. -/
structure ClaimOutcome where
  result : Except ClaimError String
  written : Option Json

/-- Model of `SafeTaskClaim::claim_under_lock` (lines 108–140).  `readResult` is the
outcome of `fs::read_to_string` followed by the JSON lexer: `none` = read
failed, `some none` = content is not well-formed JSON, `some (some j)` =
content lexes to the document `j`.  `writeOk` is whether `fs::write`
succeeds. -/
def claimUnderLock (readResult : Option (Option Json)) (writeOk : Bool)
    (taskId owner : String) : ClaimOutcome :=
  match readResult with
  | none => ⟨.error .readFailed, none⟩
  | some none => ⟨.error .invalidJson, none⟩
  | some (some content) =>
    match decode content with
    | none => ⟨.error .invalidJson, none⟩
    | some task =>
      match claimValidate task with
      | some e => ⟨.error e, none⟩
      | none =>
        let task1 : TaskFile := { task with owner := some owner, status := "in_progress" }
        if writeOk then
          ⟨.ok ("Claimed task " ++ taskId ++ ": " ++ task1.subject), some (encode task1)⟩
        else ⟨.error .writeFailed, none⟩

/-- One claim attempt against a stored task file whose current content is
the document `content`: the result, and the content stored afterwards
(unchanged when no write happened). -/
def applyClaim (content : Json) (writeOk : Bool) (taskId owner : String) :
    Except ClaimError String × Json :=
  let out := claimUnderLock (some (some content)) writeOk taskId owner
  (out.result, out.written.getD content)

/-- A sequence of claim attempts on the same task file, in the total order
imposed by the team lock: each attempt sees the content left by the
previous one.  Returns every attempt's result and the final content. -/
def runClaims (content : Json) (taskId : String) :
    List String → List (Except ClaimError String) × Json
  | [] => ([], content)
  | o :: rest =>
    let step := applyClaim content true taskId o
    let next := runClaims step.2 taskId rest
    (step.1 :: next.1, next.2)

/-- One entry of `fs::read_dir`, abstracted: its (UTF-8) file name and
whether `file_type()` says it is a directory. -/
structure DirEntry where
  name : String
  isDir : Bool

/-- Model of `SafeTaskClaim::resolve_team` (lines 63–79).  `entries` is the result
of `fs::read_dir` on the base tasks directory (`Except.error` = the
directory is unreadable). -/
def resolveTeam (team : Option String)
    (entries : Except Unit (List DirEntry)) : Except ClaimError String :=
  match team with
  | some t => .ok t
  | none =>
    match entries with
    | .error _ => .error .cannotReadTasksDir
    | .ok es =>
      match es.find? (·.isDir) with
      | some e => .ok e.name
      | none => .error .noTeamDirs

/-- Observable lock/filesystem side effects of one `do_claim` invocation. -/
inductive FsEvent where
  | lockOpen
  | lockAcquire
  | lockRelease
  | taskWrite (content : Json)

def isRelease : FsEvent → Bool
  | .lockRelease => true
  | _ => false

def isAcquire : FsEvent → Bool
  | .lockAcquire => true
  | _ => false

/-- The environment a `do_claim` invocation runs against. -/
structure Env where
  teamArg : Option String
  tasksDirEntries : Except Unit (List DirEntry)
  teamDirIsDir : String → Bool
  taskFileExists : String → String → Bool
  lockOpenOk : Bool
  flockOk : Bool
  unlockOk : Bool
  readResult : Option (Option Json)
  writeOk : Bool

/-- Model of `SafeTaskClaim::do_claim` (lines 81–106), with its event trace.
`lockRelease` stands for the lock being dropped, by `flock(LOCK_UN)` or by
the close of the file handle when it goes out of scope; it happens exactly
once after a successful `flock(LOCK_EX)`, whether or not `unlock` itself
reports success. -/
def doClaim (env : Env) (taskId owner : String) :
    Except ClaimError String × List FsEvent :=
  match resolveTeam env.teamArg env.tasksDirEntries with
  | .error e => (.error e, [])
  | .ok team =>
    if env.teamDirIsDir team then
      if env.taskFileExists team taskId then
        if env.lockOpenOk then
          if env.flockOk then
            let out := claimUnderLock env.readResult env.writeOk taskId owner
            let writes := match out.written with
              | some c => [FsEvent.taskWrite c]
              | none => []
            let result := if env.unlockOk then out.result else .error .unlockFailed
            (result, [FsEvent.lockOpen, FsEvent.lockAcquire] ++ writes ++ [FsEvent.lockRelease])
          else (.error .flockFailed, [FsEvent.lockOpen])
        else (.error .lockOpenFailed, [])
      else (.error .taskNotFound, [])
    else (.error .teamNotFound, [])

def isOk : Except ClaimError String → Bool
  | .ok _ => true
  | .error _ => false

/-! ### A spec-level characterization of decode (for claim C6) -/

theorem char_eq_of_toNat {c d : Char} (h : c.toNat = d.toNat) : c = d :=
  Char.ext (UInt32.ext h)

theorem lexLt_trans : ∀ {a b c : List Char},
    lexLt a b = true → lexLt b c = true → lexLt a c = true := by
  intro a
  induction a with
  | nil =>
    intro b c hab hbc
    cases b <;> cases c <;> simp_all [lexLt]
  | cons x xs ih =>
    intro b c hab hbc
    cases b with
    | nil => simp [lexLt] at hab
    | cons y ys =>
      cases c with
      | nil => simp [lexLt] at hbc
      | cons z zs =>
        simp only [lexLt] at hab hbc ⊢
        split_ifs at hab hbc ⊢ <;> try omega
        all_goals simp_all
        · exact ih hab hbc

theorem lexLt_total : ∀ (a b : List Char),
    lexLt a b = false → lexLt b a = false → a = b := by
  intro a
  induction a with
  | nil =>
    intro b hab hba
    cases b with
    | nil => rfl
    | cons y ys => simp [lexLt] at hab
  | cons x xs ih =>
    intro b hab hba
    cases b with
    | nil => simp [lexLt] at hba
    | cons y ys =>
      simp only [lexLt] at hab hba
      split_ifs at hab hba <;> try omega
      rename_i h1 h2
      have hxy : x = y := char_eq_of_toNat (by omega)
      rw [hxy, ih ys hab hba]

theorem lexLt_asymm : ∀ {a b : List Char}, lexLt a b = true → lexLt b a = false := by
  intro a
  induction a with
  | nil =>
    intro b hab
    cases b <;> simp_all [lexLt]
  | cons x xs ih =>
    intro b hab
    cases b with
    | nil => simp [lexLt] at hab
    | cons y ys =>
      simp only [lexLt] at hab ⊢
      split_ifs at hab ⊢ <;> try omega
      all_goals simp_all

theorem string_eq_of_data {a b : String} (h : a.data = b.data) : a = b := by
  cases a
  cases b
  exact congrArg String.mk h

theorem strLtB_trans {a b c : String} (h1 : strLtB a b = true)
    (h2 : strLtB b c = true) : strLtB a c = true := lexLt_trans h1 h2

theorem strLtB_asymm {a b : String} (h : strLtB a b = true) : strLtB b a = false :=
  lexLt_asymm h

theorem strLtB_ne {a b : String} (h : strLtB a b = true) : a ≠ b := by
  intro he
  subst he
  have h2 : strLtB a a = false := strLtB_asymm h
  simp [h] at h2

theorem strLtB_connex {a b : String} (hab : strLtB a b = false) (hne : a ≠ b) :
    strLtB b a = true := by
  cases hba : strLtB b a with
  | true => rfl
  | false => exact absurd (string_eq_of_data (lexLt_total a.data b.data hab hba)) hne

/-! ### Canonicalization lemmas -/

theorem mem_insertCanon {k : String} {v : Json} {l : List (String × Json)}
    {p : String × Json} (h : p ∈ insertCanon k v l) : p = (k, v) ∨ p ∈ l := by
  induction l with
  | nil => simpa [insertCanon] using h
  | cons q rest ih =>
    obtain ⟨k2, v2⟩ := q
    simp only [insertCanon] at h
    split_ifs at h with h1 h2
    · rcases List.mem_cons.mp h with h | h
      · exact Or.inl h
      · exact Or.inr h
    · rcases List.mem_cons.mp h with h | h
      · exact Or.inl h
      · exact Or.inr (List.mem_cons_of_mem _ h)
    · rcases List.mem_cons.mp h with h | h
      · exact Or.inr (by simp [h])
      · rcases ih h with h | h
        · exact Or.inl h
        · exact Or.inr (List.mem_cons_of_mem _ h)

theorem pairwise_insertCanon {k : String} {v : Json} {l : List (String × Json)}
    (hl : l.Pairwise keyLt) : (insertCanon k v l).Pairwise keyLt := by
  induction l with
  | nil => simp [insertCanon, List.pairwise_singleton]
  | cons q rest ih =>
    obtain ⟨k2, v2⟩ := q
    rw [List.pairwise_cons] at hl
    obtain ⟨hhead, htail⟩ := hl
    simp only [insertCanon]
    split_ifs with h1 h2
    · rw [List.pairwise_cons]
      refine ⟨?_, List.pairwise_cons.mpr ⟨hhead, htail⟩⟩
      intro q hq
      rcases List.mem_cons.mp hq with rfl | hq
      · exact h1
      · exact strLtB_trans h1 (hhead q hq)
    · subst h2
      exact List.pairwise_cons.mpr ⟨fun q hq => hhead q hq, htail⟩
    · refine List.pairwise_cons.mpr ⟨?_, ih htail⟩
      intro q hq
      rcases mem_insertCanon hq with rfl | hq
      · show strLtB k2 k = true
        exact strLtB_connex (by simpa using h1) h2
      · exact hhead q hq

theorem pairwise_sortDedup (l : List (String × Json)) :
    (sortDedup l).Pairwise keyLt := by
  have main : ∀ (m acc : List (String × Json)), acc.Pairwise keyLt →
      (m.foldl (fun a p => insertCanon p.1 p.2 a) acc).Pairwise keyLt := by
    intro m
    induction m with
    | nil => exact fun acc h => h
    | cons q rest ih => exact fun acc h => ih _ (pairwise_insertCanon h)
  exact main l [] List.Pairwise.nil

theorem mem_sortDedup {l : List (String × Json)} {p : String × Json}
    (h : p ∈ sortDedup l) : p ∈ l := by
  have main : ∀ (m acc : List (String × Json)) (p : String × Json),
      p ∈ m.foldl (fun a q => insertCanon q.1 q.2 a) acc → p ∈ acc ∨ p ∈ m := by
    intro m
    induction m with
    | nil => exact fun acc p h => Or.inl h
    | cons q rest ih =>
      intro acc p h
      obtain ⟨k, v⟩ := q
      rcases ih _ p h with h | h
      · rcases mem_insertCanon h with rfl | h
        · exact Or.inr (by simp)
        · exact Or.inl h
      · exact Or.inr (List.mem_cons_of_mem _ h)
  rcases main l [] p h with h | h
  · cases h
  · exact h

theorem insertCanon_append {k : String} {v : Json} {l : List (String × Json)}
    (h : ∀ q ∈ l, strLtB q.1 k = true) : insertCanon k v l = l ++ [(k, v)] := by
  induction l with
  | nil => rfl
  | cons q rest ih =>
    obtain ⟨k2, v2⟩ := q
    have hk2 : strLtB k2 k = true := h (k2, v2) (by simp)
    simp only [insertCanon]
    rw [if_neg (by simp [strLtB_asymm hk2]), if_neg (fun he => (strLtB_ne hk2) he.symm),
      ih (fun q hq => h q (List.mem_cons_of_mem _ hq))]
    simp

theorem foldl_insert_eq_append : ∀ (l acc : List (String × Json)),
    acc.Pairwise keyLt → l.Pairwise keyLt →
    (∀ p ∈ acc, ∀ q ∈ l, strLtB p.1 q.1 = true) →
    l.foldl (fun a p => insertCanon p.1 p.2 a) acc = acc ++ l := by
  intro l
  induction l with
  | nil =>
    intro acc _ _ _
    simp
  | cons q rest ih =>
    intro acc hacc hl hcross
    obtain ⟨k, v⟩ := q
    rw [List.pairwise_cons] at hl
    obtain ⟨hhead, htail⟩ := hl
    have happ : insertCanon k v acc = acc ++ [(k, v)] :=
      insertCanon_append (fun p hp => hcross p hp (k, v) (by simp))
    have hacc2 : (acc ++ [(k, v)]).Pairwise keyLt := by
      apply List.pairwise_append.mpr
      refine ⟨hacc, List.pairwise_singleton .., ?_⟩
      intro p hp q hq
      simp at hq
      subst hq
      exact hcross p hp (k, v) (by simp)
    have hcross2 : ∀ p ∈ acc ++ [(k, v)], ∀ q ∈ rest, strLtB p.1 q.1 = true := by
      intro p hp q hq
      rcases List.mem_append.mp hp with hp | hp
      · exact hcross p hp q (List.mem_cons_of_mem _ hq)
      · simp at hp
        subst hp
        exact hhead q hq
    calc (((k, v) :: rest).foldl (fun a p => insertCanon p.1 p.2 a) acc)
        = rest.foldl (fun a p => insertCanon p.1 p.2 a) (insertCanon k v acc) := rfl
      _ = (acc ++ [(k, v)]) ++ rest := by
          rw [happ]
          exact ih _ hacc2 htail hcross2
      _ = acc ++ (k, v) :: rest := by simp

theorem sortDedup_fixed {l : List (String × Json)} (h : l.Pairwise keyLt) :
    sortDedup l = l := by
  have := foldl_insert_eq_append l [] List.Pairwise.nil h (by intro p hp; cases hp)
  simpa [sortDedup] using this

theorem canon_null : canon .null = .null := by simp [canon]
theorem canon_bool (b : Bool) : canon (.bool b) = .bool b := by simp [canon]
theorem canon_num (n : Int) : canon (.num n) = .num n := by simp [canon]
theorem canon_str (s : String) : canon (.str s) = .str s := by simp [canon]

theorem canon_arr (js : List Json) : canon (.arr js) = .arr (js.map canon) := by
  rw [canon]
  congr 1
  exact List.attach_map_val js canon

theorem canon_obj (l : List (String × Json)) :
    canon (.obj l) = .obj (sortDedup (l.map fun p => (p.1, canon p.2))) := by
  rw [canon]
  congr 2
  exact List.attach_map_val l (fun p => (p.1, canon p.2))

theorem canon_idem_aux : ∀ (n : Nat) (j : Json), sizeOf j ≤ n →
    canon (canon j) = canon j := by
  intro n
  induction n with
  | zero =>
    intro j h
    cases j <;> simp_arith at h
  | succ n ih =>
    intro j h
    cases j with
    | null => rw [canon_null, canon_null]
    | bool b => rw [canon_bool, canon_bool]
    | num k => rw [canon_num, canon_num]
    | str s => rw [canon_str, canon_str]
    | arr js =>
      rw [canon_arr, canon_arr, List.map_map]
      congr 1
      refine List.map_congr_left fun x hx => ?_
      have hs : sizeOf x < sizeOf js := List.sizeOf_lt_of_mem hx
      have h1 : sizeOf (Json.arr js) = 1 + sizeOf js := by simp_arith
      exact ih x (by omega)
    | obj l =>
      rw [canon_obj, canon_obj]
      congr 1
      have hfix : (sortDedup (l.map fun p => (p.1, canon p.2))).map
          (fun p => (p.1, canon p.2)) =
          sortDedup (l.map fun p => (p.1, canon p.2)) := by
        have hpt : ∀ p ∈ sortDedup (l.map fun p => (p.1, canon p.2)),
            (p.1, canon p.2) = p := by
          intro p hp
          have hmem := mem_sortDedup hp
          obtain ⟨q, hq, hqe⟩ := List.mem_map.mp hmem
          have hs : sizeOf q < sizeOf l := List.sizeOf_lt_of_mem hq
          obtain ⟨qk, qv⟩ := q
          have hsv : sizeOf (qk, qv) = 1 + sizeOf qk + sizeOf qv := by simp_arith
          have h1 : sizeOf (Json.obj l) = 1 + sizeOf l := by simp_arith
          have hcv : canon (canon qv) = canon qv := ih qv (by omega)
          rw [← hqe]
          simp only []
          rw [hcv]
        calc (sortDedup (l.map fun p => (p.1, canon p.2))).map (fun p => (p.1, canon p.2))
            = (sortDedup (l.map fun p => (p.1, canon p.2))).map id :=
              List.map_congr_left (fun p hp => hpt p hp)
          _ = sortDedup (l.map fun p => (p.1, canon p.2)) := List.map_id _
      rw [hfix]
      exact sortDedup_fixed (pairwise_sortDedup _)

theorem canon_idem (j : Json) : canon (canon j) = canon j :=
  canon_idem_aux (sizeOf j) j le_rfl

theorem canon_ne_null {v : Json} (h : v ≠ Json.null) : canon v ≠ Json.null := by
  cases v with
  | null => exact absurd rfl h
  | bool b =>
    rw [canon_bool]
    simp
  | num n =>
    rw [canon_num]
    simp
  | str s =>
    rw [canon_str]
    simp
  | arr js =>
    rw [canon_arr]
    simp
  | obj l =>
    rw [canon_obj]
    simp

theorem asStrList_map_str (xs : List String) : asStrList (xs.map Json.str) = some xs := by
  induction xs with
  | nil => rfl
  | cons x xs ih => simp [asStrList, asStr, ih]

theorem metaField_metaJson_some {v : Json} (hn : v ≠ Json.null) :
    metaField [("metadata", metaJson (some v))] = some (some (canon v)) := by
  cases v with
  | null => exact absurd rfl hn
  | bool b => rfl
  | num n => rfl
  | str s => rfl
  | arr js => rfl
  | obj l => rfl

/-- Re-encoding a record obtained by decoding (or by mutating only the
`owner`/`status` strings of such a record) decodes back to itself.  The
record shapes not obtainable from `decode` are an explicit-null metadata
and a non-canonical metadata tree (the `serde_json::Value` representation
invariant); the hypothesis rules out exactly those. -/
theorem decode_encode (t : TaskFile)
    (h : ∀ m, t.metadata = some m → canon m = m ∧ m ≠ Json.null) :
    decode (encode t) = some t := by
  obtain ⟨i, subj, desc, af, st, ow, bl, bb, md⟩ := t
  have hb := asStrList_map_str bl
  have hb2 := asStrList_map_str bb
  have reduce : decode (encode ⟨i, subj, desc, af, st, ow, bl, bb, md⟩) =
      (ownerField [("owner", ownerJson ow)]).bind fun owner =>
      (asStrList (bl.map Json.str)).bind fun blocks =>
      (asStrList (bb.map Json.str)).bind fun blocked_by =>
      (metaField [("metadata", metaJson md)]).bind fun metadata =>
      some ⟨i, subj, desc, af, st, owner, blocks, blocked_by, metadata⟩ := rfl
  rw [reduce, hb, hb2]
  cases md with
  | none => cases ow <;> rfl
  | some v =>
    obtain ⟨hc, hn⟩ := h v rfl
    rw [metaField_metaJson_some hn, hc]
    cases ow <;> rfl

/-- Decomposition of a successful decode into its per-field decoders. -/
theorem decodeFields_eq {l : List (String × Json)} {t : TaskFile}
    (h : decodeFields l = some t) :
    noDupKnown l = true ∧ reqStr l "id" = some t.id ∧ reqStr l "subject" = some t.subject ∧
    optStr l "description" = some t.description ∧ optStr l "activeForm" = some t.active_form ∧
    reqStr l "status" = some t.status ∧ ownerField l = some t.owner ∧
    listField l "blocks" = some t.blocks ∧ listField l "blockedBy" = some t.blocked_by ∧
    metaField l = some t.metadata := by
  unfold decodeFields at h
  split at h
  case isFalse => exact absurd h (by simp)
  case isTrue hd =>
    simp only [Option.bind_eq_bind', Option.bind_eq_some, Option.pure_def,
      Option.some_inj] at h
    obtain ⟨a, ha, b, hb, c, hc, d, hd2, e, he, f, hf, g, hg, k, hk, m, hm, ht⟩ := h
    subst ht
    exact ⟨hd, ha, hb, hc, hd2, he, hf, hg, hk, hm⟩

/-- Whatever `metaField` stores satisfies the `serde_json::Value`
representation invariant: it is canonical and not an explicit `null`. -/
theorem metaField_ok {l : List (String × Json)} {mm : Option Json}
    (h : metaField l = some mm) :
    ∀ m, mm = some m → canon m = m ∧ m ≠ Json.null := by
  cases hk : getKey l "metadata" with
  | none =>
    unfold metaField at h
    rw [hk] at h
    intro m hm
    rw [← Option.some_inj.mp h] at hm
    cases hm
  | some v =>
    unfold metaField at h
    rw [hk] at h
    cases v with
    | null =>
      intro m hm
      rw [← Option.some_inj.mp h] at hm
      cases hm
    | bool b =>
      intro m hm
      rw [← Option.some_inj.mp h] at hm
      rw [← Option.some_inj.mp hm]
      exact ⟨canon_idem _, canon_ne_null (by simp)⟩
    | num n =>
      intro m hm
      rw [← Option.some_inj.mp h] at hm
      rw [← Option.some_inj.mp hm]
      exact ⟨canon_idem _, canon_ne_null (by simp)⟩
    | str s =>
      intro m hm
      rw [← Option.some_inj.mp h] at hm
      rw [← Option.some_inj.mp hm]
      exact ⟨canon_idem _, canon_ne_null (by simp)⟩
    | arr js =>
      intro m hm
      rw [← Option.some_inj.mp h] at hm
      rw [← Option.some_inj.mp hm]
      exact ⟨canon_idem _, canon_ne_null (by simp)⟩
    | obj ol =>
      intro m hm
      rw [← Option.some_inj.mp h] at hm
      rw [← Option.some_inj.mp hm]
      exact ⟨canon_idem _, canon_ne_null (by simp)⟩

theorem metaField_ne_null {l : List (String × Json)} {m : Option Json}
    (h : metaField l = some m) : m ≠ some Json.null :=
  fun hc => (metaField_ok h Json.null hc).2 rfl

/-- Every record obtainable from `decode` satisfies the metadata
representation invariant: canonical tree, never an explicit `null`. -/
theorem decode_metadata_ok {j : Json} {t : TaskFile} (h : decode j = some t) :
    ∀ m, t.metadata = some m → canon m = m ∧ m ≠ Json.null := by
  cases j <;> simp [decode] at h
  exact metaField_ok (decodeFields_eq h).2.2.2.2.2.2.2.2.2

/-- No record obtainable from `decode` stores an explicit `null` as its
metadata payload: `null` decodes to an absent payload. -/
theorem decode_metadata_ne_null {j : Json} {t : TaskFile}
    (h : decode j = some t) : t.metadata ≠ some Json.null :=
  fun hc => (decode_metadata_ok h Json.null hc).2 rfl

/-! ### Helper lemmas about the claim critical section -/

theorem statusDenial_eq_none {t : TaskFile} (h1 : t.status ≠ "in_progress")
    (h2 : t.status ≠ "completed") (h3 : t.status ≠ "deleted") :
    statusDenial t = none := by
  unfold statusDenial
  split <;> simp_all

theorem claimValidate_eq_none {t : TaskFile}
    (how : t.owner = none ∨ t.owner = some "")
    (h1 : t.status ≠ "in_progress") (h2 : t.status ≠ "completed")
    (h3 : t.status ≠ "deleted") : claimValidate t = none := by
  have hs := statusDenial_eq_none h1 h2 h3
  rcases how with h | h <;> simp [claimValidate, h, hs, String.isEmpty]

theorem claimUnderLock_denied {j : Json} {t : TaskFile} {e : ClaimError}
    (wOk : Bool) (taskId owner : String) (hdec : decode j = some t)
    (hval : claimValidate t = some e) :
    claimUnderLock (some (some j)) wOk taskId owner = ⟨.error e, none⟩ := by
  simp [claimUnderLock, hdec, hval]

theorem claimUnderLock_ok {j : Json} {t : TaskFile} (taskId owner : String)
    (hdec : decode j = some t) (hval : claimValidate t = none) :
    claimUnderLock (some (some j)) true taskId owner =
      ⟨.ok ("Claimed task " ++ taskId ++ ": " ++ t.subject),
       some (encode { t with owner := some owner, status := "in_progress" })⟩ := by
  simp [claimUnderLock, hdec, hval]

theorem statusDenial_isSome {t : TaskFile}
    (h : t.status = "in_progress" ∨ t.status = "completed" ∨ t.status = "deleted") :
    ∃ e, statusDenial t = some e := by
  rcases h with h | h | h
  · exact ⟨.alreadyInProgress, by simp [statusDenial, h]⟩
  · exact ⟨.alreadyCompleted, by simp [statusDenial, h]⟩
  · exact ⟨.deleted, by simp [statusDenial, h]⟩

theorem claimValidate_denied {t : TaskFile}
    (hden : (∃ o, t.owner = some o ∧ o ≠ "") ∨
      t.status = "in_progress" ∨ t.status = "completed" ∨ t.status = "deleted") :
    ∃ e, claimValidate t = some e := by
  rcases hden with ⟨o, ho, hne⟩ | hst
  · exact ⟨.alreadyClaimed o, by simp [claimValidate, ho, String.isEmpty_iff, hne]⟩
  · obtain ⟨e, he⟩ := statusDenial_isSome hst
    cases ho : t.owner with
    | none => exact ⟨e, by simp [claimValidate, ho, he]⟩
    | some o =>
      by_cases hoe : o = ""
      · subst hoe
        exact ⟨e, by simp [claimValidate, ho, String.isEmpty, he]⟩
      · exact ⟨.alreadyClaimed o, by simp [claimValidate, ho, String.isEmpty_iff, hoe]⟩

/-! ### The claims -/

/-- Claim C2: for a decoded record, a present non-empty owner is denied as
already-claimed naming that owner, regardless of status; otherwise the
status gate denies in_progress / completed / deleted with the matching
distinct errors; any other status (pending or unrecognized) is claimable
and the claim proceeds. -/
theorem C2_validation_policy {j : Json} {t : TaskFile} (wOk : Bool)
    (taskId owner : String) (hdec : decode j = some t) :
    (∀ o, t.owner = some o → o ≠ "" →
      (claimUnderLock (some (some j)) wOk taskId owner).result =
        .error (.alreadyClaimed o)) ∧
    ((t.owner = none ∨ t.owner = some "") →
      (t.status = "in_progress" →
        (claimUnderLock (some (some j)) wOk taskId owner).result =
          .error .alreadyInProgress) ∧
      (t.status = "completed" →
        (claimUnderLock (some (some j)) wOk taskId owner).result =
          .error .alreadyCompleted) ∧
      (t.status = "deleted" →
        (claimUnderLock (some (some j)) wOk taskId owner).result =
          .error .deleted) ∧
      (t.status ≠ "in_progress" → t.status ≠ "completed" → t.status ≠ "deleted" →
        ∃ msg, (claimUnderLock (some (some j)) true taskId owner).result =
          .ok msg)) := by
  constructor
  · intro o ho hne
    have hval : claimValidate t = some (.alreadyClaimed o) := by
      simp [claimValidate, ho, String.isEmpty_iff, hne]
    rw [claimUnderLock_denied wOk taskId owner hdec hval]
  · intro how
    have hsd : claimValidate t = statusDenial t := by
      rcases how with h | h <;> simp [claimValidate, h, String.isEmpty]
    refine ⟨?_, ?_, ?_, ?_⟩
    · intro hst
      have hval : claimValidate t = some .alreadyInProgress := by
        rw [hsd]; simp [statusDenial, hst]
      rw [claimUnderLock_denied wOk taskId owner hdec hval]
    · intro hst
      have hval : claimValidate t = some .alreadyCompleted := by
        rw [hsd]; simp [statusDenial, hst]
      rw [claimUnderLock_denied wOk taskId owner hdec hval]
    · intro hst
      have hval : claimValidate t = some .deleted := by
        rw [hsd]; simp [statusDenial, hst]
      rw [claimUnderLock_denied wOk taskId owner hdec hval]
    · intro h1 h2 h3
      rw [claimUnderLock_ok taskId owner hdec (claimValidate_eq_none how h1 h2 h3)]
      exact ⟨_, rfl⟩

theorem C2_witness :
    decode (.obj [("id", .str "2"), ("subject", .str "s"), ("status", .str "pending"),
      ("owner", .str "agent-b")]) =
      some ⟨"2", "s", "", "", "pending", some "agent-b", [], [], none⟩ ∧
    (claimUnderLock (some (some (.obj [("id", .str "2"), ("subject", .str "s"),
      ("status", .str "pending"), ("owner", .str "agent-b")]))) true "2" "agent-a").result =
      .error (.alreadyClaimed "agent-b") :=
  ⟨rfl, (@C2_validation_policy (.obj [("id", .str "2"), ("subject", .str "s"),
      ("status", .str "pending"), ("owner", .str "agent-b")])
      ⟨"2", "s", "", "", "pending", some "agent-b", [], [], none⟩
      true "2" "agent-a" rfl).1 "agent-b" rfl (by decide)⟩

/-- Claim C3: a successful claim writes back the record with the caller's
owner and status in_progress, preserves every other decoded field, and
returns the message naming the task id and subject. -/
theorem C3_success_write {j : Json} {t : TaskFile} (taskId owner : String)
    (hdec : decode j = some t)
    (how : t.owner = none ∨ t.owner = some "")
    (h1 : t.status ≠ "in_progress") (h2 : t.status ≠ "completed")
    (h3 : t.status ≠ "deleted") :
    ∃ t1 : TaskFile,
      claimUnderLock (some (some j)) true taskId owner =
        ⟨.ok ("Claimed task " ++ taskId ++ ": " ++ t.subject), some (encode t1)⟩ ∧
      t1.owner = some owner ∧ t1.status = "in_progress" ∧
      t1.id = t.id ∧ t1.subject = t.subject ∧ t1.description = t.description ∧
      t1.active_form = t.active_form ∧ t1.blocks = t.blocks ∧
      t1.blocked_by = t.blocked_by ∧ t1.metadata = t.metadata := by
  refine ⟨{ t with owner := some owner, status := "in_progress" },
    ?_, rfl, rfl, rfl, rfl, rfl, rfl, rfl, rfl, rfl⟩
  exact claimUnderLock_ok taskId owner hdec (claimValidate_eq_none how h1 h2 h3)

theorem C3_witness :
    decode (.obj [("id", .str "7"), ("subject", .str "Write docs"),
      ("status", .str "pending")]) =
      some ⟨"7", "Write docs", "", "", "pending", none, [], [], none⟩ ∧
    ∃ t1 : TaskFile,
      claimUnderLock (some (some (.obj [("id", .str "7"), ("subject", .str "Write docs"),
        ("status", .str "pending")]))) true "7" "agent-x" =
        ⟨.ok "Claimed task 7: Write docs", some (encode t1)⟩ ∧
      t1.owner = some "agent-x" ∧ t1.status = "in_progress" ∧
      t1.id = "7" ∧ t1.subject = "Write docs" ∧ t1.description = "" ∧
      t1.active_form = "" ∧ t1.blocks = [] ∧ t1.blocked_by = [] ∧ t1.metadata = none :=
  ⟨rfl, @C3_success_write (.obj [("id", .str "7"), ("subject", .str "Write docs"),
      ("status", .str "pending")])
    ⟨"7", "Write docs", "", "", "pending", none, [], [], none⟩
    "7" "agent-x" rfl (Or.inl rfl) (by decide) (by decide) (by decide)⟩

/-- Claim C4: a denied claim (owner already set, or status in_progress,
completed or deleted) performs no write: the stored content is unchanged
and the result is an error. -/
theorem C4_denied_no_write {j : Json} {t : TaskFile} (wOk : Bool)
    (taskId owner : String) (hdec : decode j = some t)
    (hden : (∃ o, t.owner = some o ∧ o ≠ "") ∨
      t.status = "in_progress" ∨ t.status = "completed" ∨ t.status = "deleted") :
    (claimUnderLock (some (some j)) wOk taskId owner).written = none ∧
    (applyClaim j wOk taskId owner).2 = j ∧
    ∃ e, (claimUnderLock (some (some j)) wOk taskId owner).result = .error e := by
  obtain ⟨e, hval⟩ := claimValidate_denied hden
  have hc := claimUnderLock_denied wOk taskId owner hdec hval
  refine ⟨by rw [hc], ?_, ⟨e, by rw [hc]⟩⟩
  simp [applyClaim]
  rw [hc]
  rfl

theorem C4_witness :
    decode (.obj [("id", .str "3"), ("subject", .str "s"),
      ("status", .str "in_progress")]) =
      some ⟨"3", "s", "", "", "in_progress", none, [], [], none⟩ ∧
    (claimUnderLock (some (some (.obj [("id", .str "3"), ("subject", .str "s"),
      ("status", .str "in_progress")]))) true "3" "agent-a").written = none ∧
    (applyClaim (.obj [("id", .str "3"), ("subject", .str "s"),
      ("status", .str "in_progress")]) true "3" "agent-a").2 =
      .obj [("id", .str "3"), ("subject", .str "s"), ("status", .str "in_progress")] ∧
    ∃ e, (claimUnderLock (some (some (.obj [("id", .str "3"), ("subject", .str "s"),
      ("status", .str "in_progress")]))) true "3" "agent-a").result = .error e :=
  ⟨rfl, @C4_denied_no_write (.obj [("id", .str "3"), ("subject", .str "s"),
      ("status", .str "in_progress")])
    ⟨"3", "s", "", "", "in_progress", none, [], [], none⟩
    true "3" "agent-a" rfl (Or.inr (Or.inl rfl))⟩

/-- Claim C10: an owner field equal to the empty string counts as
unclaimed, so a claim on such a record succeeds when the status is
claimable; and a claim made with the empty string as the caller's owner
stores owner as the empty string, so the next claim is denied by the
in_progress status, not by an already-claimed error. -/
theorem C10_empty_owner {j : Json} {t : TaskFile} (taskId : String)
    (hdec : decode j = some t) (how : t.owner = some "")
    (h1 : t.status ≠ "in_progress") (h2 : t.status ≠ "completed")
    (h3 : t.status ≠ "deleted") :
    (∀ ow, ∃ msg,
      (claimUnderLock (some (some j)) true taskId ow).result = .ok msg) ∧
    ∀ o2, ∃ c,
      (claimUnderLock (some (some j)) true taskId "").written = some c ∧
      (∃ t1, decode c = some t1 ∧ t1.owner = some "") ∧
      (claimUnderLock (some (some c)) true taskId o2).result =
        .error .alreadyInProgress := by
  have hval := claimValidate_eq_none (Or.inr how) h1 h2 h3
  constructor
  · intro ow
    rw [claimUnderLock_ok taskId ow hdec hval]
    exact ⟨_, rfl⟩
  · intro o2
    have hfirst := claimUnderLock_ok taskId "" hdec hval
    have hmd : ∀ m, ({ t with owner := some "", status := "in_progress" } :
        TaskFile).metadata = some m → canon m = m ∧ m ≠ Json.null :=
      show (∀ m, t.metadata = some m → canon m = m ∧ m ≠ Json.null) from
        decode_metadata_ok hdec
    have hdec1 : decode (encode { t with owner := some "", status := "in_progress" }) =
        some { t with owner := some "", status := "in_progress" } :=
      decode_encode _ hmd
    have hval1 : claimValidate { t with owner := some "", status := "in_progress" } =
        some .alreadyInProgress := by
      simp [claimValidate, String.isEmpty, statusDenial]
    refine ⟨encode { t with owner := some "", status := "in_progress" },
      by rw [hfirst], ⟨_, hdec1, rfl⟩, ?_⟩
    rw [claimUnderLock_denied true taskId o2 hdec1 hval1]

theorem C10_witness :
    decode (.obj [("id", .str "9"), ("subject", .str "s"), ("status", .str "pending"),
      ("owner", .str "")]) =
      some ⟨"9", "s", "", "", "pending", some "", [], [], none⟩ ∧
    (∃ msg, (claimUnderLock (some (some (.obj [("id", .str "9"), ("subject", .str "s"),
      ("status", .str "pending"), ("owner", .str "")]))) true "9" "agent-a").result =
        .ok msg) ∧
    ∃ c,
      (claimUnderLock (some (some (.obj [("id", .str "9"), ("subject", .str "s"),
        ("status", .str "pending"), ("owner", .str "")]))) true "9" "").written = some c ∧
      (∃ t1, decode c = some t1 ∧ t1.owner = some "") ∧
      (claimUnderLock (some (some c)) true "9" "agent-b").result =
        .error .alreadyInProgress := by
  have h := @C10_empty_owner (.obj [("id", .str "9"), ("subject", .str "s"),
      ("status", .str "pending"), ("owner", .str "")])
    ⟨"9", "s", "", "", "pending", some "", [], [], none⟩
    "9" rfl rfl (by decide) (by decide) (by decide)
  exact ⟨rfl, h.1 "agent-a", h.2 "agent-b"⟩

/-- Claim C8: an explicitly supplied team name is returned as-is with no
existence check; with no team supplied, resolution returns the name of
some subdirectory of the base tasks directory, and it fails exactly when
the base directory is unreadable or has no subdirectories. -/
theorem C8_resolve_team (entries : Except Unit (List DirEntry)) :
    (∀ t, resolveTeam (some t) entries = .ok t) ∧
    (∀ u : Unit, resolveTeam none (.error u) = .error .cannotReadTasksDir) ∧
    (∀ es : List DirEntry,
      ((∃ e, resolveTeam none (.ok es) = .error e) ↔ ∀ d ∈ es, d.isDir = false) ∧
      (∀ team, resolveTeam none (.ok es) = .ok team →
        ∃ d ∈ es, d.isDir = true ∧ d.name = team)) := by
  refine ⟨fun t => rfl, fun u => rfl, fun es => ⟨?_, ?_⟩⟩
  · constructor
    · rintro ⟨e, he⟩ d hd
      by_contra hnd
      simp only [Bool.not_eq_false] at hnd
      obtain ⟨f, hf, hfd⟩ : ∃ f, es.find? (·.isDir) = some f ∧ f.isDir = true := by
        cases hfind : es.find? (·.isDir) with
        | none =>
          rw [List.find?_eq_none] at hfind
          exact absurd hnd (by simpa using hfind d hd)
        | some f => exact ⟨f, rfl, List.find?_some hfind⟩
      simp [resolveTeam, hf] at he
    · intro hall
      have hfind : es.find? (·.isDir) = none := by
        rw [List.find?_eq_none]
        intro d hd
        simp [hall d hd]
      exact ⟨.noTeamDirs, by simp [resolveTeam, hfind]⟩
  · intro team hteam
    cases hfind : es.find? (·.isDir) with
    | none => simp [resolveTeam, hfind] at hteam
    | some f =>
      simp [resolveTeam, hfind] at hteam
      exact ⟨f, List.mem_of_find?_eq_some hfind, List.find?_some hfind, hteam⟩

theorem C8_witness :
    resolveTeam (some "alpha") (.ok []) = .ok "alpha" ∧
    resolveTeam none (.error ()) = .error .cannotReadTasksDir ∧
    (∃ e, resolveTeam none (.ok []) = .error e) ∧
    ∃ d ∈ [DirEntry.mk "alpha" true], d.isDir = true ∧ d.name = "alpha" :=
  ⟨(C8_resolve_team (.ok [])).1 "alpha",
   (C8_resolve_team (.ok [])).2.1 (),
   ((C8_resolve_team (.ok [])).2.2 []).1.2 (by intro d hd; cases hd),
   ((C8_resolve_team (.ok [])).2.2 [⟨"alpha", true⟩]).2 "alpha" rfl⟩

/-- Claim C9: `do_claim` checks the team directory and then the task file
before touching the lock resource; when either is missing the invocation
returns the corresponding not-found error with an empty event trace — no
lock file opened or created, no lock taken, and no write performed. -/
theorem C9_notfound_before_lock (env : Env) (taskId owner team : String)
    (hteam : resolveTeam env.teamArg env.tasksDirEntries = .ok team) :
    (env.teamDirIsDir team = false →
      doClaim env taskId owner = (.error .teamNotFound, [])) ∧
    (env.teamDirIsDir team = true → env.taskFileExists team taskId = false →
      doClaim env taskId owner = (.error .taskNotFound, [])) := by
  constructor
  · intro hdir
    simp [doClaim, hteam, hdir]
  · intro hdir htask
    simp [doClaim, hteam, hdir, htask]

theorem C9_witness :
    resolveTeam (some "alpha") (Except.ok []) = .ok "alpha" ∧
    doClaim ⟨some "alpha", .ok [], fun _ => false, fun _ _ => false,
      true, true, true, none, true⟩ "7" "agent-x" = (.error .teamNotFound, []) ∧
    doClaim ⟨some "alpha", .ok [], fun _ => true, fun _ _ => false,
      true, true, true, none, true⟩ "7" "agent-x" = (.error .taskNotFound, []) :=
  ⟨rfl,
   (C9_notfound_before_lock ⟨some "alpha", .ok [], fun _ => false, fun _ _ => false,
      true, true, true, none, true⟩ "7" "agent-x" "alpha" rfl).1 rfl,
   (C9_notfound_before_lock ⟨some "alpha", .ok [], fun _ => true, fun _ _ => false,
      true, true, true, none, true⟩ "7" "agent-x" "alpha" rfl).2 rfl rfl⟩

/-- Claim C5: on every execution path of `do_claim` that acquires the lock
— success, claim denial, read, parse or write failure, and whether or not
`flock(LOCK_UN)` itself succeeds — the lock is released exactly once, as
the last event before the invocation returns. -/
theorem C5_lock_release (env : Env) (taskId owner : String)
    (hacq : FsEvent.lockAcquire ∈ (doClaim env taskId owner).2) :
    ((doClaim env taskId owner).2.countP isRelease = 1) ∧
    (doClaim env taskId owner).2.getLast? = some FsEvent.lockRelease := by
  cases hteam : resolveTeam env.teamArg env.tasksDirEntries with
  | error e => simp [doClaim, hteam] at hacq
  | ok team =>
    by_cases hdir : env.teamDirIsDir team
    · by_cases htask : env.taskFileExists team taskId
      · by_cases hopen : env.lockOpenOk
        · by_cases hflock : env.flockOk
          · cases hw : (claimUnderLock env.readResult env.writeOk taskId owner).written <;>
              simp [doClaim, hteam, hdir, htask, hopen, hflock, hw, isRelease,
                List.countP_cons]
          · simp [doClaim, hteam, hdir, htask, hopen, hflock] at hacq
        · simp [doClaim, hteam, hdir, htask, hopen] at hacq
      · simp [doClaim, hteam, hdir, htask] at hacq
    · simp [doClaim, hteam, hdir] at hacq

theorem C5_witness :
    FsEvent.lockAcquire ∈ (doClaim ⟨some "alpha", .ok [], fun _ => true, fun _ _ => true,
      true, true, true, some (some (.obj [("id", .str "7"), ("subject", .str "Write docs"),
      ("status", .str "pending")])), true⟩ "7" "agent-x").2 ∧
    ((doClaim ⟨some "alpha", .ok [], fun _ => true, fun _ _ => true,
      true, true, true, some (some (.obj [("id", .str "7"), ("subject", .str "Write docs"),
      ("status", .str "pending")])), true⟩ "7" "agent-x").2.countP isRelease = 1) ∧
    (doClaim ⟨some "alpha", .ok [], fun _ => true, fun _ _ => true,
      true, true, true, some (some (.obj [("id", .str "7"), ("subject", .str "Write docs"),
      ("status", .str "pending")])), true⟩ "7" "agent-x").2.getLast? =
      some FsEvent.lockRelease := by
  have hacq : FsEvent.lockAcquire ∈ (doClaim ⟨some "alpha", .ok [], fun _ => true,
      fun _ _ => true, true, true, true, some (some (.obj [("id", .str "7"),
      ("subject", .str "Write docs"), ("status", .str "pending")])), true⟩
      "7" "agent-x").2 := by
    have hev : (doClaim ⟨some "alpha", .ok [], fun _ => true, fun _ _ => true,
        true, true, true, some (some (.obj [("id", .str "7"), ("subject", .str "Write docs"),
        ("status", .str "pending")])), true⟩ "7" "agent-x").2 =
        [FsEvent.lockOpen, FsEvent.lockAcquire,
         FsEvent.taskWrite (encode ⟨"7", "Write docs", "", "", "in_progress",
           some "agent-x", [], [], none⟩), FsEvent.lockRelease] := rfl
    rw [hev]
    simp
  exact ⟨hacq, C5_lock_release _ "7" "agent-x" hacq⟩

/-- After a denial the stored content is unchanged, so every later attempt
in the serial order sees the same record and fails the same way. -/
theorem runClaims_denied {c : Json} {u : TaskFile} {e : ClaimError}
    (taskId : String) (hdec : decode c = some u)
    (hval : claimValidate u = some e) (owners : List String) :
    runClaims c taskId owners = (owners.map fun _ => Except.error e, c) := by
  induction owners with
  | nil => rfl
  | cons o rest ih =>
    have hstep := claimUnderLock_denied true taskId o hdec hval
    simp [runClaims, applyClaim, hstep, ih]

/-- Claim C1: for N serialized claim attempts on the same pending unclaimed
task with distinct owners (the team lock totally orders all contenders),
the first in lock order succeeds and every later one fails with
already-claimed or already-in-progress; exactly one attempt succeeds and
the final stored record's owner is the winner's. -/
theorem C1_single_claimant {j : Json} {t : TaskFile} (taskId o : String)
    (rest : List String) (hdec : decode j = some t)
    (hst : t.status = "pending") (how : t.owner = none ∨ t.owner = some "")
    (hdistinct : (o :: rest).Nodup) :
    (runClaims j taskId (o :: rest)).1.head? =
      some (.ok ("Claimed task " ++ taskId ++ ": " ++ t.subject)) ∧
    (∀ r ∈ (runClaims j taskId (o :: rest)).1.tail,
      r = .error (.alreadyClaimed o) ∨ r = .error .alreadyInProgress) ∧
    (runClaims j taskId (o :: rest)).1.countP isOk = 1 ∧
    ∃ t1, decode (runClaims j taskId (o :: rest)).2 = some t1 ∧
      t1.owner = some o := by
  have h1 : t.status ≠ "in_progress" := by rw [hst]; decide
  have h2 : t.status ≠ "completed" := by rw [hst]; decide
  have h3 : t.status ≠ "deleted" := by rw [hst]; decide
  have hval : claimValidate t = none := claimValidate_eq_none how h1 h2 h3
  have hfirst := claimUnderLock_ok taskId o hdec hval
  have hmd : ∀ m, ({ t with owner := some o, status := "in_progress" } :
      TaskFile).metadata = some m → canon m = m ∧ m ≠ Json.null :=
    show (∀ m, t.metadata = some m → canon m = m ∧ m ≠ Json.null) from
      decode_metadata_ok hdec
  have hdec1 : decode (encode { t with owner := some o, status := "in_progress" }) =
      some { t with owner := some o, status := "in_progress" } := decode_encode _ hmd
  have hval1 : claimValidate { t with owner := some o, status := "in_progress" } =
      some (if o.isEmpty then ClaimError.alreadyInProgress
            else ClaimError.alreadyClaimed o) := by
    by_cases ho : o.isEmpty <;> simp [claimValidate, statusDenial, ho]
  have hrest := runClaims_denied taskId hdec1 hval1 rest
  have hrun : runClaims j taskId (o :: rest) =
      (Except.ok ("Claimed task " ++ taskId ++ ": " ++ t.subject) ::
        (rest.map fun _ => Except.error (if o.isEmpty then ClaimError.alreadyInProgress
          else ClaimError.alreadyClaimed o)),
       encode { t with owner := some o, status := "in_progress" }) := by
    simp [runClaims, applyClaim, hfirst, hrest]
  rw [hrun]
  have hz : ∀ L : List String,
      (L.map fun _ => (Except.error (if o.isEmpty then ClaimError.alreadyInProgress
        else ClaimError.alreadyClaimed o) : Except ClaimError String)).countP isOk = 0 := by
    intro L
    induction L with
    | nil => rfl
    | cons x xs ih => simp [isOk, ih]
  refine ⟨rfl, ?_, ?_, ⟨_, hdec1, rfl⟩⟩
  · intro r hr
    simp only [List.tail_cons] at hr
    obtain ⟨x, hx, hxe⟩ := List.mem_map.mp hr
    by_cases ho : o.isEmpty
    · rw [if_pos ho] at hxe; right; exact hxe.symm
    · rw [if_neg ho] at hxe; left; exact hxe.symm
  · simp [List.countP_cons, isOk, hz]

theorem C1_witness :
    decode (.obj [("id", .str "7"), ("subject", .str "Write docs"),
      ("status", .str "pending")]) =
      some ⟨"7", "Write docs", "", "", "pending", none, [], [], none⟩ ∧
    (["agent-x", "agent-y", "agent-z"] : List String).Nodup ∧
    (runClaims (.obj [("id", .str "7"), ("subject", .str "Write docs"),
      ("status", .str "pending")]) "7" ["agent-x", "agent-y", "agent-z"]).1.head? =
      some (.ok "Claimed task 7: Write docs") ∧
    (∀ r ∈ (runClaims (.obj [("id", .str "7"), ("subject", .str "Write docs"),
      ("status", .str "pending")]) "7" ["agent-x", "agent-y", "agent-z"]).1.tail,
      r = .error (.alreadyClaimed "agent-x") ∨ r = .error .alreadyInProgress) ∧
    (runClaims (.obj [("id", .str "7"), ("subject", .str "Write docs"),
      ("status", .str "pending")]) "7" ["agent-x", "agent-y", "agent-z"]).1.countP isOk = 1 ∧
    ∃ t1, decode (runClaims (.obj [("id", .str "7"), ("subject", .str "Write docs"),
      ("status", .str "pending")]) "7" ["agent-x", "agent-y", "agent-z"]).2 = some t1 ∧
      t1.owner = some "agent-x" := by
  have h := @C1_single_claimant (.obj [("id", .str "7"), ("subject", .str "Write docs"),
      ("status", .str "pending")])
    ⟨"7", "Write docs", "", "", "pending", none, [], [], none⟩
    "7" "agent-x" ["agent-y", "agent-z"] rfl rfl (Or.inl rfl) (by decide)
  exact ⟨rfl, by decide, h.1, h.2.1, h.2.2.1, h.2.2.2⟩

/-- Concrete canonicalization fact: decoding this metadata subtree sorts
its keys. -/
theorem canon_c7 : canon (.obj [("b", .num 1), ("a", .num 2)]) =
    .obj [("a", .num 2), ("b", .num 1)] := by
  rw [canon_obj]
  simp only [List.map]
  rw [canon_num, canon_num]
  rfl

theorem decode_c7_input :
    decode (.obj [("id", .str "7"), ("subject", .str "s"), ("status", .str "pending"),
      ("metadata", .obj [("b", .num 1), ("a", .num 2)])]) =
      some ⟨"7", "s", "", "", "pending", none, [], [],
        some (.obj [("a", .num 2), ("b", .num 1)])⟩ := by
  have hd : decode (.obj [("id", .str "7"), ("subject", .str "s"),
      ("status", .str "pending"), ("metadata", .obj [("b", .num 1), ("a", .num 2)])]) =
      some ⟨"7", "s", "", "", "pending", none, [], [],
        some (canon (.obj [("b", .num 1), ("a", .num 2)]))⟩ := rfl
  rw [hd, canon_c7]

/-- Claim C7 as frozen is false on the code: an arbitrary metadata value
does not survive the decode-then-encode cycle verbatim, because
`Option<serde_json::Value>` rebuilds its objects as `BTreeMap`s.  Here the
source metadata has keys in the order b, a; the record decodes with them
sorted, and re-encoding emits the sorted tree, not the source subtree. -/
theorem C7_counterexample :
    decode (.obj [("id", .str "7"), ("subject", .str "s"), ("status", .str "pending"),
      ("metadata", .obj [("b", .num 1), ("a", .num 2)])]) =
      some ⟨"7", "s", "", "", "pending", none, [], [],
        some (.obj [("a", .num 2), ("b", .num 1)])⟩ ∧
    jsonField (.obj [("id", .str "7"), ("subject", .str "s"), ("status", .str "pending"),
      ("metadata", .obj [("b", .num 1), ("a", .num 2)])]) "metadata" =
      some (.obj [("b", .num 1), ("a", .num 2)]) ∧
    jsonField (encode ⟨"7", "s", "", "", "pending", none, [], [],
      some (.obj [("a", .num 2), ("b", .num 1)])⟩) "metadata" =
      some (.obj [("a", .num 2), ("b", .num 1)]) ∧
    Json.obj [("a", .num 2), ("b", .num 1)] ≠ .obj [("b", .num 1), ("a", .num 2)] :=
  ⟨decode_c7_input, rfl, rfl, by simp⟩

/-- Claim C7 (amended): for any record obtainable from a successful
decode, encode then decode is the identity, and the metadata payload
survives the decode-then-encode cycle up to `serde_json::Value`
canonicalization: the re-emitted metadata is the canonicalization of the
source document's metadata value (object keys sorted in byte order and a
duplicated key keeping its last value, at every nesting level), so any
already-canonical metadata value survives verbatim. -/
theorem C7_metadata_canonical {j : Json} {t : TaskFile} (hdec : decode j = some t) :
    decode (encode t) = some t ∧
    ∀ v, jsonField j "metadata" = some v →
      jsonField (encode t) "metadata" = some (canon v) ∧
      (canon v = v → jsonField (encode t) "metadata" = some v) := by
  refine ⟨decode_encode t (decode_metadata_ok hdec), ?_⟩
  intro v hv
  cases j <;> simp [decode] at hdec
  rename_i l
  have hm := (decodeFields_eq hdec).2.2.2.2.2.2.2.2.2
  unfold metaField at hm
  rw [show getKey l "metadata" = some v from hv] at hm
  have henc : jsonField (encode t) "metadata" = some (metaJson t.metadata) := rfl
  have hmain : jsonField (encode t) "metadata" = some (canon v) := by
    cases v <;> rw [henc, ← Option.some_inj.mp hm] <;> first | rfl | (rw [canon_null]; rfl)
  exact ⟨hmain, fun hcv => by rw [hmain, hcv]⟩

theorem C7_witness :
    decode (.obj [("id", .str "7"), ("subject", .str "s"), ("status", .str "pending"),
      ("metadata", .obj [("b", .num 1), ("a", .num 2)])]) =
      some ⟨"7", "s", "", "", "pending", none, [], [],
        some (.obj [("a", .num 2), ("b", .num 1)])⟩ ∧
    decode (encode ⟨"7", "s", "", "", "pending", none, [], [],
      some (.obj [("a", .num 2), ("b", .num 1)])⟩) =
      some ⟨"7", "s", "", "", "pending", none, [], [],
        some (.obj [("a", .num 2), ("b", .num 1)])⟩ ∧
    jsonField (encode ⟨"7", "s", "", "", "pending", none, [], [],
      some (.obj [("a", .num 2), ("b", .num 1)])⟩) "metadata" =
      some (canon (.obj [("b", .num 1), ("a", .num 2)])) ∧
    canon (.obj [("b", .num 1), ("a", .num 2)]) = .obj [("a", .num 2), ("b", .num 1)] :=
  ⟨decode_c7_input,
   (C7_metadata_canonical decode_c7_input).1,
   ((C7_metadata_canonical decode_c7_input).2 (.obj [("b", .num 1), ("a", .num 2)]) rfl).1,
   canon_c7⟩

